import Mathlib

/-!
# Shallow embedding of `RPiStepMotor.py` (Subc2/RPiStepMotor)

This file embeds the motion-profile compiler, the step executor and the
pin-arbitration / lifecycle logic of `RPiStepMotor.py` into Lean 4, and
proves the spec's claims about them.

Modelling conventions:
* Python floats are modelled as exact rationals (`ℚ`); the spec's
  rounding-distribution claim is itself stated "assuming exact (rational)
  arithmetic".
* Python exceptions are modelled by an explicit error type; each division
  in the source is guarded by the denominator-zero test that would make
  CPython raise `ZeroDivisionError` there, in the source's evaluation order.
* `round` is Python 3's `round` (round half to even); the module's test
  driver runs under `#!/usr/bin/python3`.
* GPIO output and `time.sleep` are modelled as a trace of events; the
  executor returns the trace of events emitted before returning or raising.
* The `radians=True` branch of `rotate` only rescales the angle magnitude
  by the constant `180/π` before the (sign-independent) step-count
  computation; the model works in degrees, as all claims do.
-/

/-- Python errors that the embedded code can raise. -/
inductive PyError where
  | valueError (msg : String)
  | zeroDivisionError
  | runtimeError (msg : String)
  deriving DecidableEq, Repr

/-- An observable effect of the executor: a GPIO pin write or a sleep. -/
inductive Event where
  | write (pin : ℤ) (level : Bool)
  | sleep (d : ℚ)
  deriving DecidableEq, Repr

/-- Source constant `minimalStepDelay = 0.00195` (module line 40). -/
def minimalStepDelay : ℚ := 0.00195

/-- Source constant `phases = 4` (module line 41). -/
def phases : ℕ := 4

/-- Python 3 `round` on an exact rational: round half to even. -/
def pyRound (q : ℚ) : ℤ :=
  if Int.fract q = 1/2 then (if 2 ∣ ⌊q⌋ then ⌊q⌋ else ⌊q⌋ + 1)
  else ⌊q + 1/2⌋

/-- Python `int(·)` on an exact rational: truncation towards zero. -/
def pyInt (q : ℚ) : ℤ := if 0 ≤ q then ⌊q⌋ else ⌈q⌉

/-- Python `range(a, b, step)` for a nonzero step. -/
def pyRange (a b step : ℤ) : List ℤ :=
  if 0 < step then (List.range ((b - a + step - 1) / step).toNat).map (fun i => a + step * i)
  else if step < 0 then
    (List.range ((a - b + (-step) - 1) / (-step)).toNat).map (fun i => a + step * i)
  else []

/-- A velocity specification: the `function` argument of `rotate`, a
three-element tuple `(func, start, end)` (`end` is renamed `stop`, a Lean
keyword). -/
structure VelSpec where
  func : ℚ → ℚ
  start : ℤ
  stop : ℤ

/-- Source line 161: `transition = -1 if start > end else 1`. -/
def transitionOf (s e : ℤ) : ℤ := if s > e then -1 else 1

/-- The sampling indices `iterable = range(start, end, transition)`
(module line 162). -/
def VelSpec.iterable (vs : VelSpec) : List ℤ :=
  pyRange vs.start vs.stop (transitionOf vs.start vs.stop)

/-- The sampled magnitudes
`values = [func(i + 0.5 * transition) for i in iterable]` (module line 163). -/
def VelSpec.values (vs : VelSpec) : List ℚ :=
  vs.iterable.map (fun i => vs.func ((i : ℚ) + 1/2 * (transitionOf vs.start vs.stop : ℚ)))

/-- One iteration of the cycles loop of `_fullCycle` (module lines 168–174):
floor-divide the sampled value by `oneStepValue`, accumulate the fractional
remainder, and add one extra pulse when the remainder rounds to at least 1. -/
def cyclesStep (u : ℚ) (st : List ℤ × ℚ) (value : ℚ) : List ℤ × ℚ :=
  let integer := ⌊value / u⌋
  let remainder := st.2 + (value / u - (integer : ℚ))
  if pyRound remainder ≥ 1 then (st.1 ++ [integer + 1], remainder - 1)
  else (st.1 ++ [integer], remainder)

/-- The cycles loop of `_fullCycle` (module lines 167–174): the per-window
pulse counts and the final remainder. -/
def computeCycles (u : ℚ) (values : List ℚ) : List ℤ × ℚ :=
  values.foldl (cyclesStep u) ([], 0)

/-- Modelled from the spec (the rounding scheme as the spec words it): each
window's integer pulse count is `floor(v_i/unitValue)`, plus one extra pulse
whenever the accumulated fractional remainder carried across windows reaches
or exceeds the threshold `c`, at which point it is decremented. -/
def specCyclesReach (c u : ℚ) (values : List ℚ) : List ℤ × ℚ :=
  values.foldl (fun st v =>
    let r := st.2 + Int.fract (v / u)
    if c ≤ r then (st.1 ++ [⌊v / u⌋ + 1], r - 1) else (st.1 ++ [⌊v / u⌋], r)) ([], 0)

/-- Modelled from the spec, with a strict trigger: the extra pulse is granted
exactly when the accumulated fractional remainder strictly exceeds the
threshold `c`. -/
def specCyclesExceed (c u : ℚ) (values : List ℚ) : List ℤ × ℚ :=
  values.foldl (fun st v =>
    let r := st.2 + Int.fract (v / u)
    if c < r then (st.1 ++ [⌊v / u⌋ + 1], r - 1) else (st.1 ++ [⌊v / u⌋], r)) ([], 0)

/-- The result of the compilation phase of `_fullCycle`: either a single
uniform segment (no velocity specification, module line 158) or the list of
per-window pulse counts with the window time budget and the least step delay
(module lines 159–176). -/
inductive Plan where
  | uniform (stepDelay : ℚ)
  | windows (timePeriod : ℚ) (cycles : List ℤ) (stepDelay : ℚ)
  deriving DecidableEq, Repr

/-- The step delay that `_fullCycle` checks against `minimalStepDelay`
(module line 178). -/
def Plan.stepDelay : Plan → ℚ
  | .uniform d => d
  | .windows _ _ d => d

/-- The compilation phase of `_fullCycle` (module lines 157–176), with each
Python division guarded by the `ZeroDivisionError` it would raise, in source
evaluation order:
`oneStepValue = sum(values) / steps`, then `timePeriod = t / len(iterable)`,
then the floor division `value // oneStepValue` inside the loop, and finally
`stepDelay = timePeriod / max(cycles) / phases`. -/
def compilePlan (steps : ℤ) (t : ℚ) (f : Option VelSpec) : Except PyError Plan :=
  match f with
  | none =>
    if steps = 0 then .error .zeroDivisionError
    else .ok (.uniform (t / (steps : ℚ) / (phases : ℚ)))
  | some vs =>
    let values := vs.values
    if steps = 0 then .error .zeroDivisionError
    else
      let oneStepValue := values.sum / (steps : ℚ)
      if vs.iterable.length = 0 then .error .zeroDivisionError
      else
        let timePeriod := t / (vs.iterable.length : ℚ)
        if oneStepValue = 0 then .error .zeroDivisionError
        else
          let cycles := (computeCycles oneStepValue values).1
          match cycles.max? with
          | none => .error (.valueError "max() arg is an empty sequence")
          | some m =>
            if m = 0 then .error .zeroDivisionError
            else .ok (.windows timePeriod cycles (timePeriod / (m : ℚ) / (phases : ℚ)))

/-- The executor loop for a uniform plan (module lines 181–186): `steps`
four-pin phase cycles at a fixed step delay. -/
def executeUniform (pins : List ℤ) (steps : ℤ) (d : ℚ) : List Event :=
  (List.range steps.toNat).flatMap (fun _ =>
    pins.flatMap (fun p => [.write p true, .sleep d, .write p false]))

/-- The executor loop for a windows plan (module lines 187–197): a zero-pulse
window sleeps the whole time budget; a window with `k` pulses runs `k`
four-pin phase cycles at delay `timePeriod / k / phases`. -/
def executeWindows (pins : List ℤ) (timePeriod : ℚ) (cycles : List ℤ) : List Event :=
  cycles.flatMap (fun reps =>
    if reps = 0 then [.sleep timePeriod]
    else (List.range reps.toNat).flatMap (fun _ =>
      pins.flatMap (fun p =>
        [.write p true, .sleep (timePeriod / (reps : ℚ) / (phases : ℚ)), .write p false])))

/-- Embeds `_fullCycle` (module lines 152–197): compile, check the least step delay
against the hardware floor, then execute. The result is the trace of GPIO
events emitted, paired with the error raised (if any). -/
def fullCycle (pins : List ℤ) (steps : ℤ) (t : ℚ) (f : Option VelSpec) :
    List Event × Option PyError :=
  match compilePlan steps t f with
  | .error e => ([], some e)
  | .ok plan =>
    if plan.stepDelay < minimalStepDelay then
      ([], some (.valueError "step delay is too small"))
    else
      match plan with
      | .uniform d => (executeUniform pins steps d, none)
      | .windows tp cycles _ => (executeWindows pins tp cycles, none)

/-- The per-instance state of a `StepMotor` object: its pin tuple, its
`fullRotation` constant, and whether its worker thread is alive. -/
structure MotorState where
  pins : List ℤ
  fullRotation : ℤ
  running : Bool
  deriving DecidableEq, Repr

/-- Source lines 124–125: `steps = int(angle / 360 * self._fullRotation)`
applied to the absolute angle. -/
def rotateSteps (angle : ℚ) (fullRotation : ℤ) : ℤ :=
  pyInt (|angle| / 360 * (fullRotation : ℚ))

/-- What a call to `rotate` does: raise an error in the caller, run the
full cycle inline (`nofork`), or hand the uncompiled arguments to a freshly
started background thread. -/
inductive RotateResult where
  | err (e : PyError)
  | inline (trace : List Event) (e : Option PyError)
  | forked (pins : List ℤ) (steps : ℤ) (t : ℚ) (f : Option VelSpec)

/-- Embeds `rotate` (module lines 110–130): reject if already running, pick the pin
order from the sign of the angle, compute the step count from the absolute
angle, then either run `_fullCycle` inline or fork a thread around it. -/
def rotate (m : MotorState) (angle : ℚ) (timeForRevolution : ℚ) (f : Option VelSpec)
    (nofork : Bool) : MotorState × RotateResult :=
  if m.running then (m, .err (.runtimeError "step motor already running"))
  else
    let pins := if angle < 0 then m.pins.reverse else m.pins
    let steps := rotateSteps angle m.fullRotation
    if nofork then
      let r := fullCycle pins steps timeForRevolution f
      (m, .inline r.1 r.2)
    else
      ({ m with running := true }, .forked pins steps timeForRevolution f)

/-- The process-wide registries `allMotors` and `allPins` (module lines
38–39); a live motor is represented by its pin tuple. -/
structure World where
  allMotors : List (List ℤ)
  allPins : Finset ℤ
  deriving DecidableEq

/-- Embeds `StepMotor.__init__` (module lines 50–72): reject a pin tuple whose
length is not `phases` or that meets the claimed-pin registry; otherwise
register the motor and its pins.  The world is returned unchanged on error,
as the source's checks precede every mutation. -/
def initMotor (w : World) (pins : List ℤ) (fullRotation : ℤ) :
    World × Except PyError MotorState :=
  if pins.length ≠ phases then
    (w, .error (.valueError "step motor needs 4 input pins"))
  else if (pins.filter (fun p => p ∈ w.allPins)) ≠ [] then
    (w, .error (.valueError "some pins are already in use"))
  else
    ({ allMotors := w.allMotors ++ [pins], allPins := w.allPins ∪ pins.toFinset },
     .ok { pins := pins, fullRotation := fullRotation, running := false })

/-- Embeds `_delete` (module lines 137–150): wait for the thread, release the GPIO
pins, deregister the motor and remove its pins from the claimed set. -/
def deleteMotor (w : World) (pins : List ℤ) : World :=
  { allMotors := w.allMotors.erase pins, allPins := w.allPins \ pins.toFinset }

/-- The registry invariant maintained by construction and teardown: the
motor registry is a set (as Python's `allMotors` is), every live pin tuple
has exactly `phases` entries, no pin belongs to two live pin tuples, and
every live pin is recorded in `allPins`. -/
def WorldInv (w : World) : Prop :=
  w.allMotors.Nodup ∧
  (∀ ps ∈ w.allMotors, ps.length = phases) ∧
  w.allMotors.Pairwise (fun a b => ∀ p ∈ a, p ∉ b) ∧
  (∀ ps ∈ w.allMotors, ∀ p ∈ ps, p ∈ w.allPins)

/-- Python 3 `round q` is at least 1 precisely when `q` strictly exceeds
`1/2` (at exactly `1/2` the tie goes to the even integer `0`). -/
lemma pyRound_ge_one_iff (q : ℚ) : 1 ≤ pyRound q ↔ 1/2 < q := by
  unfold pyRound
  split
  · rename_i hfr
    have hq : q = (⌊q⌋ : ℚ) + 1/2 := by
      conv_lhs => rw [← Int.floor_add_fract q, hfr]
    split
    · constructor
      · intro h
        have h1 : (1 : ℚ) ≤ (⌊q⌋ : ℚ) := by exact_mod_cast h
        linarith
      · intro h
        have h0 : (0 : ℚ) < (⌊q⌋ : ℚ) := by linarith
        have h0' : 0 < ⌊q⌋ := by exact_mod_cast h0
        omega
    · rename_i hodd
      have hne : ⌊q⌋ ≠ 0 := by
        intro h0
        exact hodd (h0 ▸ ⟨0, rfl⟩)
      constructor
      · intro h
        have h1 : (1 : ℚ) ≤ (⌊q⌋ : ℚ) := by exact_mod_cast (by omega : 1 ≤ ⌊q⌋)
        linarith
      · intro h
        have h0 : (0 : ℚ) < (⌊q⌋ : ℚ) := by linarith
        have h0' : 0 < ⌊q⌋ := by exact_mod_cast h0
        omega
  · rename_i hfr
    rw [Int.le_floor]
    push_cast
    constructor
    · intro h
      rcases lt_or_eq_of_le (by linarith : (1/2 : ℚ) ≤ q) with h' | h'
      · exact h'
      · exact absurd (by rw [← h']; norm_num : Int.fract q = 1/2) hfr
    · intro h; linarith

/-- The fractional part accumulated by the cycles loop is `Int.fract` of the
quotient. -/
lemma sub_floor_eq_fract (q : ℚ) : q - (⌊q⌋ : ℚ) = Int.fract q := rfl

/-- Distributing a sum over a division. -/
lemma sum_map_div (l : List ℚ) (u : ℚ) :
    (l.map (fun v => v / u)).sum = l.sum / u := by
  induction l with
  | nil => simp
  | cons x xs ih => simp [ih, add_div]

/-- Running-sum invariant of the cycles loop: the emitted pulse counts plus
the carried remainder always equal the exact fractional pulse total. -/
lemma cyclesFold_sum (u : ℚ) (values : List ℚ) :
    ∀ (acc : List ℤ) (r : ℚ),
      (((values.foldl (cyclesStep u) (acc, r)).1.sum : ℚ)
          + (values.foldl (cyclesStep u) (acc, r)).2)
        = (acc.sum : ℚ) + r + (values.map (fun v => v / u)).sum := by
  induction values with
  | nil => intro acc r; simp
  | cons v vs ih =>
    intro acc r
    simp only [List.foldl_cons, List.map_cons, List.sum_cons]
    by_cases h : 1 ≤ pyRound (r + Int.fract (v / u))
    · rw [show cyclesStep u (acc, r) v
          = (acc ++ [⌊v / u⌋ + 1], r + Int.fract (v / u) - 1) from by
        simp [cyclesStep, sub_floor_eq_fract, h]]
      rw [ih]
      simp only [List.sum_append, List.sum_cons, List.sum_nil, Int.fract]
      push_cast
      ring
    · rw [show cyclesStep u (acc, r) v
          = (acc ++ [⌊v / u⌋], r + Int.fract (v / u)) from by
        simp [cyclesStep, sub_floor_eq_fract, h]]
      rw [ih]
      simp only [List.sum_append, List.sum_cons, List.sum_nil, Int.fract]
      push_cast
      ring

/-- Remainder invariant of the cycles loop: the carried remainder stays in
`[-1/2, 1/2]`. -/
lemma cyclesFold_rem (u : ℚ) (values : List ℚ) :
    ∀ (acc : List ℤ) (r : ℚ), -(1/2) ≤ r → r ≤ 1/2 →
      -(1/2) ≤ (values.foldl (cyclesStep u) (acc, r)).2
        ∧ (values.foldl (cyclesStep u) (acc, r)).2 ≤ 1/2 := by
  induction values with
  | nil => intro acc r h1 h2; exact ⟨h1, h2⟩
  | cons v vs ih =>
    intro acc r h1 h2
    simp only [List.foldl_cons]
    have hfr0 : (0 : ℚ) ≤ Int.fract (v / u) := Int.fract_nonneg _
    have hfr1 : Int.fract (v / u) < 1 := Int.fract_lt_one _
    by_cases h : 1 ≤ pyRound (r + Int.fract (v / u))
    · rw [show cyclesStep u (acc, r) v
          = (acc ++ [⌊v / u⌋ + 1], r + Int.fract (v / u) - 1) from by
        simp [cyclesStep, sub_floor_eq_fract, h]]
      have htr : 1/2 < r + Int.fract (v / u) := (pyRound_ge_one_iff _).mp h
      exact ih _ _ (by linarith) (by linarith)
    · rw [show cyclesStep u (acc, r) v
          = (acc ++ [⌊v / u⌋], r + Int.fract (v / u)) from by
        simp [cyclesStep, sub_floor_eq_fract, h]]
      have htr : ¬ (1/2 : ℚ) < r + Int.fract (v / u) :=
        fun hc => h ((pyRound_ge_one_iff _).mpr hc)
      exact ih _ _ (by linarith) (by linarith)

/-- Inversion of the velocity-specification branch of the compiler: a
successful compilation yields the windows plan built from `computeCycles`,
with all of the source's division guards passed. -/
lemma compilePlan_some_ok {steps : ℤ} {t : ℚ} {vs : VelSpec} {p : Plan}
    (h : compilePlan steps t (some vs) = .ok p) :
    steps ≠ 0 ∧ vs.values.sum ≠ 0 ∧ vs.iterable.length ≠ 0 ∧
      ∃ m, (computeCycles (vs.values.sum / (steps : ℚ)) vs.values).1.max? = some m ∧
        m ≠ 0 ∧
        p = .windows (t / (vs.iterable.length : ℚ))
              (computeCycles (vs.values.sum / (steps : ℚ)) vs.values).1
              (t / (vs.iterable.length : ℚ) / (m : ℚ) / (phases : ℚ)) := by
  unfold compilePlan at h
  dsimp only at h
  split at h
  · simp at h
  split at h
  · simp at h
  split at h
  · simp at h
  split at h
  · simp at h
  split at h
  · simp at h
  rename_i hsteps hlen hu x m hmax hm
  rw [Except.ok.injEq] at h
  exact ⟨hsteps, fun hS => hu (by rw [hS]; simp), hlen, m, hmax, hm, h.symm⟩

/-- C1: for every velocity specification accepted by the compiler (so
`start ≠ end` and the division guards pass) the list of per-window pulse
counts (`cycles`) sums exactly to the requested step count `steps`: the
error-feedback rounding of `_fullCycle` introduces no drift under exact
rational arithmetic. -/
theorem cycles_sum_eq_steps (steps : ℤ) (t : ℚ) (vs : VelSpec)
    (tp : ℚ) (cycles : List ℤ) (d : ℚ)
    (h : compilePlan steps t (some vs) = .ok (.windows tp cycles d)) :
    cycles.sum = steps := by
  obtain ⟨hsteps, hS, hlen, m, hmax, hm, hp⟩ := compilePlan_some_ok h
  rw [Plan.windows.injEq] at hp
  obtain ⟨htp, hcyc, hd⟩ := hp
  set u := vs.values.sum / (steps : ℚ) with hu_def
  have hdiv : (vs.values.map (fun v => v / u)).sum = (steps : ℚ) := by
    rw [sum_map_div, hu_def, div_div_eq_mul_div, mul_comm, mul_div_assoc,
      div_self hS, mul_one]
  have hsum := cyclesFold_sum u vs.values [] 0
  have hrem := cyclesFold_rem u vs.values [] 0 (by norm_num) (by norm_num)
  have key : ((cycles.sum : ℤ) : ℚ) + (computeCycles u vs.values).2 = (steps : ℚ) := by
    rw [hcyc]
    simpa [computeCycles, hdiv] using hsum
  have hr1 : -(1/2 : ℚ) ≤ (computeCycles u vs.values).2 := by
    simpa [computeCycles] using hrem.1
  have hr2 : (computeCycles u vs.values).2 ≤ 1/2 := by
    simpa [computeCycles] using hrem.2
  have hint : ((steps - cycles.sum : ℤ) : ℚ) = (computeCycles u vs.values).2 := by
    rw [Int.cast_sub]
    linarith [key]
  have hb1 : (-1 : ℤ) < steps - cycles.sum := by
    have hq : (-1 : ℚ) < ((steps - cycles.sum : ℤ) : ℚ) := by
      rw [hint]; linarith
    exact_mod_cast hq
  have hb2 : steps - cycles.sum < 1 := by
    have hq : ((steps - cycles.sum : ℤ) : ℚ) < 1 := by
      rw [hint]; linarith
    exact_mod_cast hq
  omega

/-- Witness for C1: the spec `func(x) = x` sampled on `range(0, 2)` with
`steps = 4` compiles to window pulse counts `[1, 3]`, which sum to 4. -/
theorem cycles_sum_eq_steps_witness :
    compilePlan 4 1 (some ⟨fun x => x, 0, 2⟩) = .ok (.windows (1/2) [1, 3] (1/24))
      ∧ ([1, 3] : List ℤ).sum = 4 := by
  have h1 : VelSpec.iterable ⟨fun x => x, 0, 2⟩ = [0, 1] := by
    decide
  have h2 : VelSpec.values ⟨fun x => x, 0, 2⟩ = [1/2, 3/2] := by
    norm_num [VelSpec.values, h1, transitionOf]
  have h3 : computeCycles ((1 : ℚ)/2) [1/2, 3/2] = ([1, 3], 0) := by
    norm_num [computeCycles, cyclesStep, pyRound, Int.fract]
  have h4 : ([1, 3] : List ℤ).max? = some 3 := by decide
  have hcompile : compilePlan 4 1 (some ⟨fun x => x, 0, 2⟩)
      = .ok (.windows (1/2) [1, 3] (1/24)) := by
    simp only [compilePlan, h1, h2]
    norm_num [h3, h4, phases]
  exact ⟨hcompile, cycles_sum_eq_steps 4 1 _ _ _ _ hcompile⟩

example : pyRound (6/10) = 1 := by norm_num [pyRound, Int.fract]
example : pyRound (1/2) = 0 := by norm_num [pyRound, Int.fract]
example : pyRound (3/2) = 2 := by norm_num [pyRound, Int.fract]
example : pyInt (256 : ℚ) = 256 := by norm_num [pyInt]
example : rotateSteps 180 512 = 256 := by norm_num [rotateSteps, pyInt]
example : (computeCycles 1 [8/5, 12/5]).1 = [2, 2] := by
  norm_num [computeCycles, cyclesStep, pyRound, Int.fract]

/-- C4 (amended): the code's per-window pulse counts follow the claimed
floor-plus-carry scheme, but the extra pulse is granted exactly when the
running remainder strictly exceeds 1/2 (so that Python 3's `round` of it is
at least 1), not when it reaches 1. -/
theorem cycles_eq_specExceed_half (u : ℚ) (values : List ℚ) :
    computeCycles u values = specCyclesExceed (1/2) u values := by
  unfold computeCycles specCyclesExceed
  refine List.foldl_ext _ _ _ (fun st v _ => ?_)
  simp only [cyclesStep, sub_floor_eq_fract]
  by_cases h : 1/2 < st.2 + Int.fract (v / u)
  · rw [if_pos ((pyRound_ge_one_iff _).mpr h), if_pos h]
  · rw [if_neg (fun hc => h ((pyRound_ge_one_iff _).mp hc)), if_neg h]

/-- Counterexample to C4 as stated: for the velocity specification
`func(x) = 4/5·x + 6/5` on `range(0, 2)` with `steps = 4` (sampled values
`[8/5, 12/5]`, `unitValue = 1`), the compiler grants the first window an
extra pulse while the running remainder is only `3/5 < 1`, producing
`[2, 2]`, whereas the claimed reach-1 scheme would produce `[1, 3]`. -/
theorem cycles_threshold_counterexample :
    compilePlan 4 1 (some ⟨fun x => 4/5 * x + 6/5, 0, 2⟩)
        = .ok (.windows (1/2) [2, 2] (1/16))
      ∧ (specCyclesReach 1 1 [8/5, 12/5]).1 = [1, 3]
      ∧ (computeCycles 1 [8/5, 12/5]).1 ≠ (specCyclesReach 1 1 [8/5, 12/5]).1 := by
  have h1 : VelSpec.iterable ⟨fun x => 4/5 * x + 6/5, 0, 2⟩ = [0, 1] := by
    decide
  have h2 : VelSpec.values ⟨fun x => 4/5 * x + 6/5, 0, 2⟩ = [8/5, 12/5] := by
    norm_num [VelSpec.values, h1, transitionOf]
  have h3 : computeCycles (1 : ℚ) [8/5, 12/5] = ([2, 2], 0) := by
    norm_num [computeCycles, cyclesStep, pyRound, Int.fract]
  have h4 : ([2, 2] : List ℤ).max? = some 2 := by decide
  have hf1 : Int.fract ((8:ℚ)/5) = 3/5 := by norm_num [Int.fract]
  have hf2 : Int.fract ((12:ℚ)/5) = 2/5 := by norm_num [Int.fract]
  have hg1 : (⌊(8:ℚ)/5⌋ : ℤ) = 1 := by norm_num
  have hg2 : (⌊(12:ℚ)/5⌋ : ℤ) = 2 := by norm_num
  have h5 : (specCyclesReach 1 1 [8/5, 12/5]).1 = [1, 3] := by
    simp only [specCyclesReach, List.foldl_cons, List.foldl_nil]
    norm_num [hf1, hf2, hg1, hg2]
  refine ⟨?_, h5, ?_⟩
  · simp only [compilePlan, h1, h2]
    norm_num [h3, h4, phases]
  · rw [h5, h3]
    decide

/-- C2 (amended): a forked `rotate` hands the raw, uncompiled arguments to
the background thread; compilation and the feasibility check run only inside
the background pass, so a forked `rotate` never raises a feasibility error
itself. -/
theorem rotate_fork_defers_compilation (m : MotorState) (angle t : ℚ)
    (f : Option VelSpec) (h : m.running = false) :
    rotate m angle t f false
      = ({ m with running := true },
         .forked (if angle < 0 then m.pins.reverse else m.pins)
           (rotateSteps angle m.fullRotation) t f) := by
  simp [rotate, h]

/-- Witness for the amended C2 at a concrete idle motor. -/
theorem rotate_fork_defers_compilation_witness :
    rotate ⟨[6, 13, 19, 26], 512, false⟩ 180 20 none false
      = (⟨[6, 13, 19, 26], 512, true⟩,
         .forked [6, 13, 19, 26] (rotateSteps 180 512) 20 none) := by
  have h := rotate_fork_defers_compilation ⟨[6, 13, 19, 26], 512, false⟩ 180 20 none rfl
  simpa using h

/-- Counterexample to C2 as stated: with `fullRotation = 512`, `angle = 180`
and `timeForRevolution = 1`, the motion is infeasible (uniform delay
`1/1024 < 0.00195`), yet the forked `rotate` succeeds and returns after
dispatch; the feasibility error is raised only by the background
`_fullCycle` pass, after the handoff. -/
theorem rotate_fork_infeasible_counterexample :
    rotate ⟨[6, 13, 19, 26], 512, false⟩ 180 1 none false
        = (⟨[6, 13, 19, 26], 512, true⟩, .forked [6, 13, 19, 26] 256 1 none)
      ∧ fullCycle [6, 13, 19, 26] 256 1 none
        = ([], some (.valueError "step delay is too small")) := by
  have hsteps : rotateSteps 180 512 = 256 := by
    norm_num [rotateSteps, pyInt]
  constructor
  · simp [rotate, hsteps]
  · have hc : compilePlan 256 1 (none : Option VelSpec)
        = .ok (.uniform (1 / (256 : ℚ) / 4)) := by
      norm_num [compilePlan, phases]
    have hlt : (1 : ℚ) / 256 / 4 < minimalStepDelay := by
      norm_num [minimalStepDelay]
    unfold fullCycle
    rw [hc]
    dsimp only [Plan.stepDelay]
    rw [if_pos hlt]

/-- C6: calling `rotate` on a running motor raises
`RuntimeError("step motor already running")` at once; the motor state (pin
tuple, `fullRotation`, run flag) is returned untouched and no event is
emitted, since the check precedes every other action of `rotate`. -/
theorem rotate_while_running_rejected (m : MotorState) (angle t : ℚ)
    (f : Option VelSpec) (nofork : Bool) (h : m.running = true) :
    rotate m angle t f nofork
      = (m, .err (.runtimeError "step motor already running")) := by
  simp [rotate, h]

/-- Witness for C6 at a concrete running motor. -/
theorem rotate_while_running_rejected_witness :
    rotate ⟨[6, 13, 19, 26], 512, true⟩ 180 20 none false
      = (⟨[6, 13, 19, 26], 512, true⟩,
         .err (.runtimeError "step motor already running")) :=
  rotate_while_running_rejected _ _ _ _ _ rfl

/-- C8: a negative angle drives the reversed pin tuple, and only the pin
order depends on the sign: the step count (hence the compiled segment
content) is computed from the absolute angle and agrees with the rotation by
the opposite (positive) angle, whose pin tuple is unreversed. -/
theorem negative_angle_reverses_pins (m : MotorState) (a t : ℚ)
    (f : Option VelSpec) (hrun : m.running = false) (ha : a < 0) :
    rotate m a t f false
        = ({ m with running := true },
           .forked m.pins.reverse (rotateSteps a m.fullRotation) t f)
      ∧ rotate m (-a) t f false
        = ({ m with running := true },
           .forked m.pins (rotateSteps a m.fullRotation) t f) := by
  have h1 : rotateSteps (-a) m.fullRotation = rotateSteps a m.fullRotation := by
    simp [rotateSteps, abs_neg]
  have hna : ¬ (-a < 0) := by linarith
  constructor
  · simp [rotate, hrun, ha]
  · simp [rotate, hrun, hna, h1]

/-- Witness for C8: `angle = -180` versus `angle = 180` on a concrete idle
motor, both compiling to 256 steps. -/
theorem negative_angle_reverses_pins_witness :
    rotate ⟨[6, 13, 19, 26], 512, false⟩ (-180) 10 none false
        = (⟨[6, 13, 19, 26], 512, true⟩, .forked [26, 19, 13, 6] 256 10 none)
      ∧ rotate ⟨[6, 13, 19, 26], 512, false⟩ 180 10 none false
        = (⟨[6, 13, 19, 26], 512, true⟩, .forked [6, 13, 19, 26] 256 10 none) := by
  have h := negative_angle_reverses_pins ⟨[6, 13, 19, 26], 512, false⟩ (-180) 10 none
    rfl (by norm_num)
  have hsteps : rotateSteps (-180) 512 = 256 := by
    norm_num [rotateSteps, pyInt]
  constructor
  · simpa [hsteps] using h.1
  · simpa [hsteps] using h.2

/-- C3: if the least inter-pulse delay of the compiled sequence — the
uniform delay `t/steps/4`, or in the velocity case `timePeriod / max(cycles) / 4`
computed from the window with the largest pulse count — is below
`minimalStepDelay`, then `_fullCycle` raises
`ValueError("step delay is too small")` before any pin write: the emitted
event trace is empty. -/
theorem small_delay_fails_before_output :
    (∀ (pins : List ℤ) (steps : ℤ) (t : ℚ), steps ≠ 0 →
        t / (steps : ℚ) / 4 < minimalStepDelay →
        fullCycle pins steps t none
          = ([], some (.valueError "step delay is too small")))
  ∧ (∀ (pins : List ℤ) (steps : ℤ) (t : ℚ) (vs : VelSpec) (tp : ℚ)
        (cycles : List ℤ) (d : ℚ) (m : ℤ),
        compilePlan steps t (some vs) = .ok (.windows tp cycles d) →
        cycles.max? = some m →
        tp / (m : ℚ) / 4 < minimalStepDelay →
        fullCycle pins steps t (some vs)
          = ([], some (.valueError "step delay is too small"))) := by
  constructor
  · intro pins steps t hsteps hlt
    have hc : compilePlan steps t none
        = .ok (.uniform (t / (steps : ℚ) / (phases : ℚ))) := by
      simp [compilePlan, hsteps]
    have hlt' : t / (steps : ℚ) / (phases : ℚ) < minimalStepDelay := by
      simpa [phases] using hlt
    unfold fullCycle
    rw [hc]
    dsimp only [Plan.stepDelay]
    rw [if_pos hlt']
  · intro pins steps t vs tp cycles d m hcomp hmax hlt
    obtain ⟨hsteps, hS, hlen, m', hmax', hm', hp⟩ := compilePlan_some_ok hcomp
    rw [Plan.windows.injEq] at hp
    obtain ⟨htp, hcyc, hd⟩ := hp
    have hmm : m = m' := by
      rw [hcyc] at hmax
      rw [hmax] at hmax'
      exact Option.some.inj hmax'
    have hdlt : d < minimalStepDelay := by
      rw [hd, ← htp, ← hmm]
      simpa [phases] using hlt
    unfold fullCycle
    rw [hcomp]
    dsimp only [Plan.stepDelay]
    rw [if_pos hdlt]

/-- Witness for C3: the spec `func(x) = x` on `range(0, 2)` with `steps = 4`
and duration `1/100` compiles, its largest window holds 3 pulses giving
delay `1/2400 < 0.00195`, and the executor rejects it with an empty trace. -/
theorem small_delay_fails_before_output_witness :
    compilePlan 4 (1/100) (some ⟨fun x => x, 0, 2⟩)
        = .ok (.windows (1/200) [1, 3] (1/2400))
      ∧ fullCycle [6, 13, 19, 26] 4 (1/100) (some ⟨fun x => x, 0, 2⟩)
        = ([], some (.valueError "step delay is too small")) := by
  have h1 : VelSpec.iterable ⟨fun x => x, 0, 2⟩ = [0, 1] := by
    decide
  have h2 : VelSpec.values ⟨fun x => x, 0, 2⟩ = [1/2, 3/2] := by
    norm_num [VelSpec.values, h1, transitionOf]
  have h3 : computeCycles ((1 : ℚ)/2) [1/2, 3/2] = ([1, 3], 0) := by
    norm_num [computeCycles, cyclesStep, pyRound, Int.fract]
  have h4 : ([1, 3] : List ℤ).max? = some 3 := by decide
  have hcompile : compilePlan 4 (1/100) (some ⟨fun x => x, 0, 2⟩)
      = .ok (.windows (1/200) [1, 3] (1/2400)) := by
    simp only [compilePlan, h1, h2]
    norm_num [h3, h4, phases]
  refine ⟨hcompile, ?_⟩
  exact small_delay_fails_before_output.2 [6, 13, 19, 26] 4 (1/100) _ _ _ _ 3
    hcompile (by decide) (by norm_num [minimalStepDelay])

/-- C5: without a velocity specification the step count is
`floor(|angle|/360 * fullRotation)` (for a nonnegative `fullRotation`,
Python's `int` truncation coincides with `floor` there) and the single
segment has uniform delay `t/steps/4`; in the concrete scenario
`angle = 180, fullRotation = 512, duration = 20` this gives 256 steps at
delay `5/256 = 0.01953125`, and the executor emits exactly 256 four-pin
phase cycles. -/
theorem uniform_scenario :
    (∀ (angle : ℚ) (fR : ℤ), 0 ≤ fR →
        rotateSteps angle fR = ⌊|angle| / 360 * (fR : ℚ)⌋)
  ∧ (∀ (steps : ℤ) (t : ℚ), steps ≠ 0 →
        compilePlan steps t none = .ok (.uniform (t / (steps : ℚ) / 4)))
  ∧ rotateSteps 180 512 = 256
  ∧ fullCycle [6, 13, 19, 26] 256 20 none
      = ((List.range 256).flatMap (fun _ =>
          ([6, 13, 19, 26] : List ℤ).flatMap (fun p =>
            [.write p true, .sleep (5/256), .write p false])), none) := by
  refine ⟨?_, ?_, by norm_num [rotateSteps, pyInt], ?_⟩
  · intro angle fR h
    unfold rotateSteps pyInt
    rw [if_pos]
    exact mul_nonneg (div_nonneg (abs_nonneg _) (by norm_num)) (by exact_mod_cast h)
  · intro steps t h
    norm_num [compilePlan, h, phases]
  · have hc : compilePlan 256 20 none
        = .ok (.uniform (20 / (256 : ℚ) / (phases : ℚ))) := by
      simp [compilePlan]
    have hge : ¬ (20 / (256 : ℚ) / (phases : ℚ) < minimalStepDelay) := by
      norm_num [phases, minimalStepDelay]
    unfold fullCycle
    rw [hc]
    dsimp only [Plan.stepDelay]
    rw [if_neg hge]
    unfold executeUniform
    norm_num [phases, show ((256 : ℤ)).toNat = 256 from rfl]

/-- Witness for C5: the step-count formula at `angle = -90` and the uniform
plan at `steps = 256, t = 20`, with both hypotheses discharged. -/
theorem uniform_scenario_witness :
    rotateSteps (-90) 512 = ⌊|(-90 : ℚ)| / 360 * ((512 : ℤ) : ℚ)⌋
      ∧ compilePlan 256 20 none = .ok (.uniform (20 / ((256 : ℤ) : ℚ) / 4)) :=
  ⟨uniform_scenario.1 (-90) 512 (by norm_num),
   uniform_scenario.2.1 256 20 (by norm_num)⟩

/-- C7: a construction attempt whose pin tuple does not have exactly
`phases = 4` entries, or that contains a pin already claimed, raises
`ValueError` and leaves the process-wide registries (`allMotors`,
`allPins`) unchanged: both checks precede every mutation in `__init__`. -/
theorem init_rejects_bad_pins (w : World) (pins : List ℤ) (fr : ℤ)
    (h : pins.length ≠ phases ∨ ∃ p ∈ pins, p ∈ w.allPins) :
    (initMotor w pins fr).1 = w
      ∧ ∃ msg, (initMotor w pins fr).2 = .error (.valueError msg) := by
  unfold initMotor
  by_cases hlen : pins.length ≠ phases
  · rw [if_pos hlen]
    exact ⟨rfl, "step motor needs 4 input pins", rfl⟩
  · rw [if_neg hlen]
    obtain ⟨p, hp, hin⟩ := h.resolve_left hlen
    have hfil : pins.filter (fun q => q ∈ w.allPins) ≠ [] := by
      intro hnil
      have hmem : p ∈ pins.filter (fun q => q ∈ w.allPins) :=
        List.mem_filter.mpr ⟨hp, by simpa using hin⟩
      simp [hnil] at hmem
    rw [if_pos hfil]
    exact ⟨rfl, "some pins are already in use", rfl⟩

/-- Witness for C7: with pins 1–4 already claimed by a live motor, a second
construction requesting pin 4 fails and mutates nothing. -/
theorem init_rejects_bad_pins_witness :
    (initMotor ⟨[[1, 2, 3, 4]], {1, 2, 3, 4}⟩ [4, 5, 6, 7] 512).1
        = ⟨[[1, 2, 3, 4]], {1, 2, 3, 4}⟩
      ∧ ∃ msg, (initMotor ⟨[[1, 2, 3, 4]], {1, 2, 3, 4}⟩ [4, 5, 6, 7] 512).2
        = .error (.valueError msg) :=
  init_rejects_bad_pins _ _ _ (Or.inr ⟨4, by norm_num, by norm_num⟩)

/-- Construction preserves the registry invariant: a rejected attempt leaves
the world unchanged, and an accepted pin tuple is disjoint from every live
pin, has length `phases`, and is recorded in both registries. -/
lemma worldInv_init (w : World) (hw : WorldInv w) (pins : List ℤ) (fr : ℤ) :
    WorldInv (initMotor w pins fr).1 := by
  obtain ⟨hnd, hlen, hpw, hsub⟩ := hw
  unfold initMotor
  by_cases h1 : pins.length ≠ phases
  · rw [if_pos h1]
    exact ⟨hnd, hlen, hpw, hsub⟩
  · rw [if_neg h1]
    by_cases h2 : pins.filter (fun q => q ∈ w.allPins) ≠ []
    · rw [if_pos h2]
      exact ⟨hnd, hlen, hpw, hsub⟩
    · rw [if_neg h2]
      rw [not_not] at h2
      have hdisj : ∀ p ∈ pins, p ∉ w.allPins := by
        intro p hp hmem
        have hin : p ∈ pins.filter (fun q => q ∈ w.allPins) :=
          List.mem_filter.mpr ⟨hp, by simpa using hmem⟩
        simp [h2] at hin
      have hlens : pins.length = phases := not_not.mp h1
      have hpins_ne : pins ≠ [] := by
        intro he
        rw [he] at hlens
        simp [phases] at hlens
      have hnew : pins ∉ w.allMotors := by
        intro hmem
        obtain ⟨p, hp⟩ := List.exists_mem_of_ne_nil pins hpins_ne
        exact hdisj p hp (hsub pins hmem p hp)
      refine ⟨?_, ?_, ?_, ?_⟩
      · rw [List.nodup_append]
        exact ⟨hnd, List.nodup_singleton _, by
          intro a ha hb
          rw [List.mem_singleton.mp hb] at ha
          exact hnew ha⟩
      · intro qs hqs
        rcases List.mem_append.mp hqs with hq | hq
        · exact hlen qs hq
        · rw [List.mem_singleton.mp hq]
          exact hlens
      · rw [List.pairwise_append]
        refine ⟨hpw, List.pairwise_singleton _ _, ?_⟩
        intro a ha b hb p hpa hpb
        rw [List.mem_singleton.mp hb] at hpb
        exact hdisj p hpb (hsub a ha p hpa)
      · intro qs hqs p hpq
        rcases List.mem_append.mp hqs with hq | hq
        · exact Finset.mem_union_left _ (hsub qs hq p hpq)
        · rw [List.mem_singleton.mp hq] at hpq
          exact Finset.mem_union_right _ (List.mem_toFinset.mpr hpq)

/-- Teardown of a live motor preserves the registry invariant: its pins are
removed from `allPins` without touching any other live motor's pins, thanks
to pairwise disjointness. -/
lemma worldInv_delete (w : World) (hw : WorldInv w) (ps : List ℤ)
    (hps : ps ∈ w.allMotors) : WorldInv (deleteMotor w ps) := by
  obtain ⟨hnd, hlen, hpw, hsub⟩ := hw
  have hsym : Symmetric (fun (a b : List ℤ) => ∀ p ∈ a, p ∉ b) := by
    intro a b hab p hpb hpa
    exact hab p hpa hpb
  refine ⟨hnd.erase ps, ?_, hpw.sublist (List.erase_sublist ps w.allMotors), ?_⟩
  · intro qs hqs
    exact hlen qs (List.mem_of_mem_erase hqs)
  · intro qs hqs p hpq
    have hq_mem : qs ∈ w.allMotors := List.mem_of_mem_erase hqs
    have hq_ne : qs ≠ ps := by
      intro he
      rw [he] at hqs
      exact hnd.not_mem_erase hqs
    have hdisj : ∀ q ∈ qs, q ∉ ps := hpw.forall hsym hq_mem hps hq_ne
    exact Finset.mem_sdiff.mpr
      ⟨hsub qs hq_mem p hpq, fun hc => hdisj p hpq (List.mem_toFinset.mp hc)⟩

/-- C9 (amended): every live pin tuple has exactly `phases = 4` entries
(counted with multiplicity — construction does not reject duplicates inside
one tuple), no pin belongs to two live pin tuples, construction rejects
tuples of the wrong length or overlapping live pins, and the registry
invariant is preserved by construction and teardown. -/
theorem pin_registry_invariant (w : World) (pins : List ℤ) (fr : ℤ)
    (hw : WorldInv w) :
    WorldInv (initMotor w pins fr).1
      ∧ (∀ mo, (initMotor w pins fr).2 = .ok mo → mo.pins.length = phases)
      ∧ (∀ ps ∈ w.allMotors, WorldInv (deleteMotor w ps)) := by
  refine ⟨worldInv_init w hw pins fr, ?_, fun ps hps => worldInv_delete w hw ps hps⟩
  intro mo hmo
  unfold initMotor at hmo
  by_cases h1 : pins.length ≠ phases
  · rw [if_pos h1] at hmo
    simp at hmo
  · rw [if_neg h1] at hmo
    by_cases h2 : pins.filter (fun q => q ∈ w.allPins) ≠ []
    · rw [if_pos h2] at hmo
      simp at hmo
    · rw [if_neg h2] at hmo
      rw [Except.ok.injEq] at hmo
      rw [← hmo]
      exact not_not.mp h1

/-- Witness for the amended C9: constructing a first motor on pins 6, 13,
19, 26 from the empty registry preserves the invariant. -/
theorem pin_registry_invariant_witness :
    WorldInv (initMotor ⟨[], ∅⟩ [6, 13, 19, 26] 512).1 :=
  (pin_registry_invariant ⟨[], ∅⟩ [6, 13, 19, 26] 512
    ⟨List.nodup_nil, by simp, List.Pairwise.nil, by simp⟩).1

/-- Counterexample to C9 as stated: `__init__` accepts the pin tuple
`(1, 1, 2, 3)` — length 4 but only 3 distinct pins — so a live motor's pin
set need not consist of 4 *distinct* identifiers, and construction does not
reject the violation. -/
theorem pin_distinctness_counterexample :
    (initMotor ⟨[], ∅⟩ [1, 1, 2, 3] 512).2 = .ok ⟨[1, 1, 2, 3], 512, false⟩
      ∧ ([1, 1, 2, 3] : List ℤ).dedup.length = 3 := by
  constructor
  · have h1 : ¬ (([1, 1, 2, 3] : List ℤ).length ≠ phases) := by decide
    have h2 : ¬ (([1, 1, 2, 3] : List ℤ).filter
        (fun q => q ∈ (⟨[], ∅⟩ : World).allPins) ≠ []) := by decide
    unfold initMotor
    rw [if_neg h1, if_neg h2]
  · decide

/-- The compiler divides by the step count before anything else, so a zero
step count raises `ZeroDivisionError` in `_fullCycle` whether or not a
velocity specification is given, with no event emitted. -/
lemma fullCycle_zero_steps (pins : List ℤ) (t : ℚ) (f : Option VelSpec) :
    fullCycle pins 0 t f = ([], some .zeroDivisionError) := by
  cases f with
  | none => simp [fullCycle, compilePlan]
  | some vs => simp [fullCycle, compilePlan]

/-- C10: a rotation whose computed step count is zero (any angle with
`|angle| * fullRotation < 360`, including zero) is not rejected by `rotate`;
the delay computation of `_fullCycle` (`t/steps/4`, or
`sum(values)/steps` with a velocity specification) then divides by zero, so
a synchronous call fails with an unguarded `ZeroDivisionError` and an
asynchronous call dispatches the doomed pass to the background thread. -/
theorem zero_steps_unguarded_division (m : MotorState) (angle t : ℚ)
    (f : Option VelSpec) (hrun : m.running = false) (hfr : 0 < m.fullRotation)
    (hang : |angle| * (m.fullRotation : ℚ) < 360) :
    rotateSteps angle m.fullRotation = 0
      ∧ rotate m angle t f true = (m, .inline [] (some .zeroDivisionError))
      ∧ rotate m angle t f false
        = ({ m with running := true },
           .forked (if angle < 0 then m.pins.reverse else m.pins) 0 t f) := by
  have hsteps : rotateSteps angle m.fullRotation = 0 := by
    unfold rotateSteps pyInt
    have hq0 : (0 : ℚ) ≤ |angle| / 360 * (m.fullRotation : ℚ) :=
      mul_nonneg (div_nonneg (abs_nonneg _) (by norm_num)) (by exact_mod_cast hfr.le)
    rw [if_pos hq0, Int.floor_eq_zero_iff]
    have hlt : |angle| / 360 * (m.fullRotation : ℚ) < 1 := by
      rw [div_mul_eq_mul_div, div_lt_one (by norm_num : (0:ℚ) < 360)]
      exact hang
    exact ⟨hq0, hlt⟩
  refine ⟨hsteps, ?_, ?_⟩
  · simp [rotate, hrun, hsteps, fullCycle_zero_steps]
  · simp [rotate, hrun, hsteps]

/-- Witness for C10 at `angle = 0` on a concrete idle motor. -/
theorem zero_steps_unguarded_division_witness :
    rotateSteps 0 512 = 0
      ∧ rotate ⟨[6, 13, 19, 26], 512, false⟩ 0 20 none true
        = (⟨[6, 13, 19, 26], 512, false⟩, .inline [] (some .zeroDivisionError))
      ∧ rotate ⟨[6, 13, 19, 26], 512, false⟩ 0 20 none false
        = (⟨[6, 13, 19, 26], 512, true⟩, .forked [6, 13, 19, 26] 0 20 none) := by
  have h := zero_steps_unguarded_division ⟨[6, 13, 19, 26], 512, false⟩ 0 20 none
    rfl (by norm_num) (by norm_num)
  exact ⟨h.1, h.2.1, by simpa using h.2.2⟩
